import Mathlib

/-!
Shallow embedding of the IPS motion-detector recording pipeline (`main.py`).

The source loads a protobuf recording into two pandas DataFrames
(`positions` and `magnetics`), interpolates a planar position for every
magnetic sample from consecutive ground-truth fixes
(`magnetics_pos_calc`), and aggregates magnetic magnitudes into a
rectangular grid of per-cell averages (`set_rect_grid`).

Numbers are modelled by `ℚ` (exact rationals in place of IEEE floats);
grid cell values, which are sums of square roots, live in `ℝ`.
DataFrames are modelled as a list of column names plus a list of typed
rows; a missing value / NaN outcome is modelled with `Option`.
-/

/-- One deserialized protobuf position record (`measurements.positions`). -/
structure PositionRecord where
  t : ℚ
  x : ℚ
  y : ℚ
  floor : Int
  type : Int
  accuracy : ℚ
deriving DecidableEq, Repr

/-- One deserialized protobuf magnetic record (`measurements.magnetics`);
the raw field axes are called `x`, `y`, `z` in the file. -/
structure MagneticRecord where
  t : ℚ
  x : ℚ
  y : ℚ
  z : ℚ
  accuracy : ℚ
deriving DecidableEq, Repr

/-- The deserialized recording: two ordered record sequences. -/
structure Measurements where
  positions : List PositionRecord
  magnetics : List MagneticRecord
deriving DecidableEq, Repr

/-- A row of the `positions` DataFrame (columns `t,x,y,floor,type,accuracy`). -/
structure PosRow where
  t : ℚ
  x : ℚ
  y : ℚ
  floor : Int
  type : Int
  accuracy : ℚ
deriving DecidableEq, Repr, Inhabited

/-- A row of the `magnetics` DataFrame after loading
(columns `t,mx,my,mz,accuracy,x,y`). -/
structure MagRow where
  t : ℚ
  mx : ℚ
  my : ℚ
  mz : ℚ
  accuracy : ℚ
  x : ℚ
  y : ℚ
deriving DecidableEq, Repr, Inhabited

/-- The `positions` DataFrame: column labels plus ordered rows. -/
structure PosDF where
  columns : List String
  rows : List PosRow
deriving DecidableEq, Repr

/-- The `magnetics` DataFrame: column labels plus ordered rows. -/
structure MagDF where
  columns : List String
  rows : List MagRow
deriving DecidableEq, Repr

/-- `Series.max` of pandas: `none` on an empty column (pandas yields NaN). -/
def maxTList : List ℚ → Option ℚ
  | [] => none
  | t :: ts => some (ts.foldl max t)

/-- The boolean filter `magnetics['t'] <= positions['t'].max()` of
`read_recording`; a comparison against the NaN produced by an empty
`positions` column is false in pandas, hence `none ↦ false`. -/
def keepMag (maxT : Option ℚ) (t : ℚ) : Bool :=
  match maxT with
  | none => false
  | some m => decide (t ≤ m)

/-- The column rename `{x ↦ mx, y ↦ my, z ↦ mz}` applied by
`read_recording` (a no-op on the already-renamed column labels). -/
def magRename (c : String) : String :=
  if c = "x" then "mx" else if c = "y" then "my" else if c = "z" then "mz" else c

/-- Copying one position record into a `positions` row. -/
def posRecordRow (p : PositionRecord) : PosRow :=
  ⟨p.t, p.x, p.y, p.floor, p.type, p.accuracy⟩

/-- Copying one magnetic record into a `magnetics` row; the estimated
position columns `x`, `y` are initialized to the literal `0.0`. -/
def magRecordRow (r : MagneticRecord) : MagRow :=
  ⟨r.t, r.x, r.y, r.z, r.accuracy, 0, 0⟩

/-- `IPSRecording.read_recording`: builds the `positions` DataFrame, the
`magnetics` DataFrame with columns renamed and `x`/`y` initialized to `0.0`,
then discards magnetic rows recorded after the last ground-truth timestamp. -/
def read_recording (m : Measurements) : PosDF × MagDF :=
  let positions : PosDF :=
    ⟨["t", "x", "y", "floor", "type", "accuracy"], m.positions.map posRecordRow⟩
  let magCols : List String := (["t", "mx", "my", "mz", "accuracy"].map magRename) ++ ["x", "y"]
  let magRows : List MagRow :=
    (m.magnetics.map magRecordRow).filter
      (fun r => keepMag (maxTList (positions.rows.map PosRow.t)) r.t)
  (positions, ⟨magCols, magRows⟩)

/-- State of the inner `while` loop of `magnetics_pos_calc`: current
magnetics rows, the advancing row cursor, the current magnetic timestamp
`tj`, and whether the early `return None` (cursor past the end) fired. -/
structure InnerRes where
  mags : List MagRow
  row : ℕ
  tj : ℚ
  done : Bool
deriving Repr

/-- The two assignments `magnetics.loc[row,'x'/'y'] = (tj - t[i]) * speed + pos[i]`. -/
def assignRow (m : MagRow) (ti xi yi sx sy tj : ℚ) : MagRow :=
  { m with x := (tj - ti) * sx + xi, y := (tj - ti) * sy + yi }

/-- The inner `while tj < positions.loc[i+1]['t']` loop of
`magnetics_pos_calc`: assigns the interpolated position of row `row`,
advances the cursor, and stops the whole algorithm (`done = true`) as soon
as the cursor reaches the end of the magnetics table.  `fuel` bounds the
iteration count; every caller passes `mags.length`, which is sufficient
because the cursor grows by one per step and the loop returns once it
reaches `mags.length`. -/
def magInner (tnext ti xi yi sx sy : ℚ) : ℕ → List MagRow → ℕ → ℚ → InnerRes
  | 0, mags, row, tj => ⟨mags, row, tj, false⟩
  | fuel + 1, mags, row, tj =>
    if tj < tnext then
      if row + 1 ≥ mags.length then
        ⟨mags.set row (assignRow (mags.getD row default) ti xi yi sx sy tj), row + 1, tj, true⟩
      else
        magInner tnext ti xi yi sx sy fuel
          (mags.set row (assignRow (mags.getD row default) ti xi yi sx sy tj))
          (row + 1)
          (((mags.set row (assignRow (mags.getD row default) ti xi yi sx sy tj)).getD
              (row + 1) default).t)
    else ⟨mags, row, tj, false⟩

/-- The outer `for i in positions.index[:-1]` loop of `magnetics_pos_calc`:
walks consecutive ground-truth pairs, computing the constant interval
velocity `speed = (pos[i+1]-pos[i])/(t[i+1]-t[i])` and running the inner
loop, whose cursor is never reset between pairs. -/
def magOuterAux : List PosRow → List MagRow → ℕ → ℚ → List MagRow
  | p0 :: p1 :: rest, mags, row, tj =>
    match magInner p1.t p0.t p0.x p0.y
        ((p1.x - p0.x) / (p1.t - p0.t)) ((p1.y - p0.y) / (p1.t - p0.t))
        mags.length mags row tj with
    | ⟨mags2, _, _, true⟩ => mags2
    | ⟨mags2, row2, tj2, false⟩ => magOuterAux (p1 :: rest) mags2 row2 tj2
  | _, mags, _, _ => mags

/-- `IPSRecording.magnetics_pos_calc`: reads `tj = magnetics.loc[0]['t']`
(a KeyError, modelled as `none`, when the magnetics table is empty) and
runs the nested interpolation loops starting from cursor row `0`. -/
def magnetics_pos_calc (positions : List PosRow) (magnetics : List MagRow) :
    Option (List MagRow) :=
  match magnetics with
  | [] => none
  | m0 :: _ => some (magOuterAux positions magnetics 0 m0.t)

/-- `min` of a nonempty rational column, as `foldl` over the remaining
entries (pandas `Series.min`). -/
def qmin (a : ℚ) (l : List ℚ) : ℚ := l.foldl min a

/-- `max` of a nonempty rational column (pandas `Series.max`). -/
def qmax (a : ℚ) (l : List ℚ) : ℚ := l.foldl max a

/-- `positions.x.min()` (junk value `0` on an empty table, where the
source raises instead; `set_rect_grid` guards the empty case separately). -/
def xminOf : List PosRow → ℚ
  | [] => 0
  | p :: pr => qmin p.x (pr.map PosRow.x)

/-- `positions.x.max()`. -/
def xmaxOf : List PosRow → ℚ
  | [] => 0
  | p :: pr => qmax p.x (pr.map PosRow.x)

/-- `positions.y.min()`. -/
def yminOf : List PosRow → ℚ
  | [] => 0
  | p :: pr => qmin p.y (pr.map PosRow.y)

/-- `positions.y.max()`. -/
def ymaxOf : List PosRow → ℚ
  | [] => 0
  | p :: pr => qmax p.y (pr.map PosRow.y)

/-- Length of Python's `range(a, b, step)`; `none` models the
`ValueError` raised on a zero step. -/
def rangeLen (a b step : Int) : Option ℕ :=
  if step = 0 then none
  else if 0 < step then
    some (if a < b then (b - a - 1).toNat / step.toNat + 1 else 0)
  else
    some (if b < a then (a - b - 1).toNat / (-step).toNat + 1 else 0)

/-- The grid dimensions allocated by `set_rect_grid`:
`(len(x_axis) + 1, len(y_axis) + 1)` for the axis break-point lists
`range(floor(min), ceil(max), cell_size)` derived from the positions table
only.  `none` models the errors raised on an empty positions table
(`int(nan)`) or a zero cell size (`range` step 0). -/
def gridShapeD (ps : List PosRow) (cw ch : Int) : Option (ℕ × ℕ) :=
  match ps with
  | [] => none
  | _ :: _ =>
    match rangeLen ⌊xminOf ps⌋ ⌈xmaxOf ps⌉ cw, rangeLen ⌊yminOf ps⌋ ⌈ymaxOf ps⌉ ch with
    | some xlen, some ylen => some (xlen + 1, ylen + 1)
    | _, _ => none

/-- Resolution of a (possibly negative) numpy index against an axis of
size `n`: negative indices in `[-n, 0)` wrap to `i + n`; anything else is
an `IndexError` (`none`). -/
def npIndex (n : ℕ) (i : Int) : Option ℕ :=
  if 0 ≤ i ∧ i < (n : Int) then some i.toNat
  else if -(n : Int) ≤ i ∧ i < 0 then some (i + n).toNat
  else none

/-- The literal cell-index formula of `set_rect_grid`,
`row = -(ceil(x - x_min) // cell_w)`, `col = -(ceil(y - y_min) // cell_h)`
(Python `//` is floor division, hence `Int.fdiv`), resolved against the
allocated `n × m` shape with numpy index wrapping. -/
def cellOf (n m : ℕ) (xmin ymin : ℚ) (cw ch : Int) (r : MagRow) : Option (ℕ × ℕ) :=
  match npIndex n (-(Int.fdiv ⌈r.x - xmin⌉ cw)), npIndex m (-(Int.fdiv ⌈r.y - ymin⌉ ch)) with
  | some i, some j => some (i, j)
  | _, _ => none

/-- The accumulation loop of `set_rect_grid` over all magnetic rows:
adds `sqv r` (in the source, the magnitude `sqrt(mx² + my² + mz²)`) into
`grid_sum[row, col]` and bumps `cnt[row, col]`; an unresolvable index is
the source's `IndexError` (`none`).  Generic in the value type so that the
index bookkeeping stays executable. -/
def gridLoop {α : Type} [Add α] (sqv : MagRow → α) (n m : ℕ) (xmin ymin : ℚ)
    (cw ch : Int) :
    List MagRow → (ℕ → ℕ → α) → (ℕ → ℕ → ℕ) →
      Option ((ℕ → ℕ → α) × (ℕ → ℕ → ℕ))
  | [], gsum, cnt => some (gsum, cnt)
  | r :: rs, gsum, cnt =>
    match cellOf n m xmin ymin cw ch r with
    | none => none
    | some (i, j) =>
      gridLoop sqv n m xmin ymin cw ch rs
        (fun a b => if a = i ∧ b = j then gsum a b + sqv r else gsum a b)
        (fun a b => if a = i ∧ b = j then cnt a b + 1 else cnt a b)

/-- The grid returned by `set_rect_grid`: its allocated shape and the
per-cell value, where `none` is the NaN written into zero-count cells. -/
structure GridResult (α : Type) where
  shape : ℕ × ℕ
  val : ℕ → ℕ → Option α
deriving Inhabited

/-- `IPSRecording.set_rect_grid` (the computation; plotting is a pure
side effect): derives the shape from the positions extents, accumulates
every magnetic sample, replaces zero counts by NaN and divides
elementwise.  Generic in the cell value type `α`. -/
def set_rect_grid {α : Type} [Zero α] [Add α] [Div α] [NatCast α] (sqv : MagRow → α)
    (ps : List PosRow) (mags : List MagRow) (cw ch : Int) : Option (GridResult α) :=
  match gridShapeD ps cw ch with
  | none => none
  | some (n, m) =>
    match gridLoop sqv n m (xminOf ps) (yminOf ps) cw ch mags
        (fun _ _ => (0 : α)) (fun _ _ => 0) with
    | none => none
    | some (gsum, cnt) =>
      some ⟨(n, m), fun i j =>
        if i < n ∧ j < m then
          (if cnt i j = 0 then none else some (gsum i j / (cnt i j : α)))
        else none⟩

/-- The squared magnetic magnitude `mx² + my² + mz²`. -/
def magSq (r : MagRow) : ℚ := r.mx ^ 2 + r.my ^ 2 + r.mz ^ 2

/-- The magnetic magnitude `sqrt(mx² + my² + mz²)` of one sample. -/
noncomputable def magnitudeR (r : MagRow) : ℝ := Real.sqrt ((magSq r : ℚ) : ℝ)

/-- `set_rect_grid` at its actual value type: real-valued cells holding
sums of magnitudes divided by counts. -/
noncomputable def set_rect_grid_real (ps : List PosRow) (mags : List MagRow)
    (cw ch : Int) : Option (GridResult ℝ) :=
  set_rect_grid magnitudeR ps mags cw ch

/-- Executable success predicate for `set_rect_grid`: the shape is
allocatable and every magnetic sample's cell index resolves in bounds. -/
def gridOK (ps : List PosRow) (mags : List MagRow) (cw ch : Int) : Bool :=
  match gridShapeD ps cw ch with
  | none => false
  | some (n, m) =>
    mags.all (fun r => (cellOf n m (xminOf ps) (yminOf ps) cw ch r).isSome)

/-- An abstract read-only filesystem: whether a path is a regular file,
and the deserialized recording its bytes parse to (`none` = parse error). -/
structure FileSystem where
  isfile : String → Bool
  contents : String → Option Measurements

/-- The failures the constructor pipeline can surface. -/
inductive IPSError where
  /-- `FileNotFoundError` raised by `__init__`, carrying its message. -/
  | notFound : String → IPSError
  /-- a deserialization failure propagated from `FromString`. -/
  | parseError : IPSError
  /-- the KeyError of `magnetics.loc[0]` on an empty magnetics table. -/
  | emptyMagnetics : IPSError
deriving DecidableEq, Repr

/-- The mutable state of an `IPSRecording` instance. -/
structure IPSState where
  pb_file : String
  positions : PosDF
  magnetics : MagDF
deriving DecidableEq, Repr

/-- `read_recording` as a state transformer: reads and deserializes the
stored path and replaces both DataFrames wholesale, ignoring any
previously stored tables. -/
def read_recording_state (fs : FileSystem) (s : IPSState) : Except IPSError IPSState :=
  match fs.contents s.pb_file with
  | none => Except.error IPSError.parseError
  | some m => Except.ok { s with positions := (read_recording m).1,
                                 magnetics := (read_recording m).2 }

/-- `magnetics_pos_calc` as a state transformer on the magnetics rows. -/
def magnetics_pos_calc_state (s : IPSState) : Except IPSError IPSState :=
  match magnetics_pos_calc s.positions.rows s.magnetics.rows with
  | none => Except.error IPSError.emptyMagnetics
  | some rows2 => Except.ok { s with magnetics := { s.magnetics with rows := rows2 } }

/-- `IPSRecording.__init__`: raises `FileNotFoundError` naming the path
unless `os.path.isfile` holds, and only then loads and interpolates. -/
def IPSRecording_init (fs : FileSystem) (pb_file : String) : Except IPSError IPSState :=
  if fs.isfile pb_file = false then
    Except.error (IPSError.notFound
      ("The specified path " ++ pb_file ++ " isn\x27t a proper file!"))
  else
    (read_recording_state fs ⟨pb_file, ⟨[], []⟩, ⟨[], []⟩⟩).bind magnetics_pos_calc_state

/-- Strictness of the `while` condition: when `tj` is not strictly below
the interval's upper bound `t[i+1]`, the inner loop assigns nothing. -/
theorem magInner_not_lt (tnext ti xi yi sx sy : ℚ) (fuel : ℕ) (mags : List MagRow)
    (row : ℕ) (tj : ℚ) (h : ¬ tj < tnext) :
    magInner tnext ti xi yi sx sy fuel mags row tj = ⟨mags, row, tj, false⟩ := by
  cases fuel with
  | zero => rfl
  | succ n => simp [magInner, h]

/-- A ground-truth pair whose upper timestamp is at most `tj` is skipped
by the outer loop without touching the magnetics table or the cursor. -/
theorem magOuterAux_skip (p q : PosRow) (l : List PosRow) (mags : List MagRow)
    (row : ℕ) (tj : ℚ) (h : ¬ tj < q.t) :
    magOuterAux (p :: q :: l) mags row tj = magOuterAux (q :: l) mags row tj := by
  simp only [magOuterAux,
    magInner_not_lt q.t p.t p.x p.y ((q.x - p.x) / (q.t - p.t))
      ((q.y - p.y) / (q.t - p.t)) mags.length mags row tj h]

/-- Setting a row at index `≥ 1` leaves the head of the table unchanged. -/
theorem head?_set_succ (mags : List MagRow) (row : ℕ) (a : MagRow) (h : 1 ≤ row) :
    (mags.set row a).head? = mags.head? := by
  cases mags with
  | nil => simp
  | cons m ms =>
    cases row with
    | zero => exact absurd h (by simp)
    | succ r => rfl

/-- Once the cursor is past the first row, the inner loop never changes
the first magnetics row, and the cursor never moves backwards. -/
theorem magInner_head_row (tnext ti xi yi sx sy : ℚ) (fuel : ℕ) :
    ∀ (mags : List MagRow) (row : ℕ) (tj : ℚ), 1 ≤ row →
      (magInner tnext ti xi yi sx sy fuel mags row tj).mags.head? = mags.head? ∧
      row ≤ (magInner tnext ti xi yi sx sy fuel mags row tj).row := by
  induction fuel with
  | zero => intro mags row tj _; exact ⟨rfl, le_rfl⟩
  | succ n ih =>
    intro mags row tj h
    by_cases hlt : tj < tnext
    · by_cases hge : row + 1 ≥ mags.length
      · simp only [magInner, if_pos hlt, if_pos hge]
        exact ⟨head?_set_succ mags row _ h, Nat.le_succ row⟩
      · simp only [magInner, if_pos hlt, if_neg hge]
        have h2 := ih (mags.set row (assignRow (mags.getD row default) ti xi yi sx sy tj))
          (row + 1)
          (((mags.set row (assignRow (mags.getD row default) ti xi yi sx sy tj)).getD
              (row + 1) default).t) (by omega)
        exact ⟨h2.1.trans (head?_set_succ mags row _ h), le_trans (Nat.le_succ row) h2.2⟩
    · rw [magInner_not_lt _ _ _ _ _ _ _ _ _ _ hlt]
      exact ⟨rfl, le_rfl⟩

/-- Once the cursor is past the first row, the whole outer loop never
changes the first magnetics row. -/
theorem magOuterAux_head (ps : List PosRow) :
    ∀ (mags : List MagRow) (row : ℕ) (tj : ℚ), 1 ≤ row →
      (magOuterAux ps mags row tj).head? = mags.head? := by
  induction ps with
  | nil => intro mags row tj _; rfl
  | cons p ps ih =>
    cases ps with
    | nil => intro mags row tj _; rfl
    | cons q l =>
      intro mags row tj h
      have hpres := magInner_head_row q.t p.t p.x p.y ((q.x - p.x) / (q.t - p.t))
        ((q.y - p.y) / (q.t - p.t)) mags.length mags row tj h
      rcases hres : magInner q.t p.t p.x p.y ((q.x - p.x) / (q.t - p.t))
          ((q.y - p.y) / (q.t - p.t)) mags.length mags row tj with ⟨mags2, row2, tj2, d⟩
      rw [hres] at hpres
      cases d with
      | false =>
        simp only [magOuterAux, hres]
        exact (ih mags2 row2 tj2 (le_trans h hpres.2)).trans hpres.1
      | true =>
        simp only [magOuterAux, hres]
        exact hpres.1

/-- Head lemma for the interpolation loops: if every ground-truth
timestamp from the second row up to `pa` is at most the first magnetic
timestamp `m0.t`, and `m0.t < pb.t`, then the first magnetic row is
assigned in the interval `(pa, pb)` with that interval's velocity. -/
theorem magOuterAux_head_interp (pa pb : PosRow) (m0 : MagRow) (pre : List PosRow) :
    ∀ (rest : List PosRow) (tail : List MagRow),
      (∀ q ∈ (pre ++ [pa]).tail, q.t ≤ m0.t) → m0.t < pb.t →
      (magOuterAux (pre ++ pa :: pb :: rest) (m0 :: tail) 0 m0.t).head? =
      some { m0 with
        x := (m0.t - pa.t) * ((pb.x - pa.x) / (pb.t - pa.t)) + pa.x,
        y := (m0.t - pa.t) * ((pb.y - pa.y) / (pb.t - pa.t)) + pa.y } := by
  induction pre with
  | nil =>
    intro rest tail _ h1
    simp only [List.nil_append]
    cases tail with
    | nil =>
      simp only [magOuterAux, List.length_cons, List.length_nil, magInner]
      rw [if_pos h1, if_pos (by simp)]
      rfl
    | cons m1 tl =>
      have hstep : magInner pb.t pa.t pa.x pa.y ((pb.x - pa.x) / (pb.t - pa.t))
            ((pb.y - pa.y) / (pb.t - pa.t)) (m0 :: m1 :: tl).length (m0 :: m1 :: tl) 0 m0.t
          = magInner pb.t pa.t pa.x pa.y ((pb.x - pa.x) / (pb.t - pa.t))
            ((pb.y - pa.y) / (pb.t - pa.t)) (tl.length + 1)
            (assignRow m0 pa.t pa.x pa.y ((pb.x - pa.x) / (pb.t - pa.t))
              ((pb.y - pa.y) / (pb.t - pa.t)) m0.t :: m1 :: tl) 1 m1.t := by
        show magInner pb.t pa.t pa.x pa.y ((pb.x - pa.x) / (pb.t - pa.t))
            ((pb.y - pa.y) / (pb.t - pa.t)) (Nat.succ (tl.length + 1)) (m0 :: m1 :: tl) 0 m0.t = _
        rw [magInner.eq_2, if_pos h1, if_neg (by simp)]
        rfl
      have hpres := magInner_head_row pb.t pa.t pa.x pa.y ((pb.x - pa.x) / (pb.t - pa.t))
        ((pb.y - pa.y) / (pb.t - pa.t)) (tl.length + 1)
        (assignRow m0 pa.t pa.x pa.y ((pb.x - pa.x) / (pb.t - pa.t))
          ((pb.y - pa.y) / (pb.t - pa.t)) m0.t :: m1 :: tl) 1 m1.t le_rfl
      rcases hres : magInner pb.t pa.t pa.x pa.y ((pb.x - pa.x) / (pb.t - pa.t))
          ((pb.y - pa.y) / (pb.t - pa.t)) (tl.length + 1)
          (assignRow m0 pa.t pa.x pa.y ((pb.x - pa.x) / (pb.t - pa.t))
            ((pb.y - pa.y) / (pb.t - pa.t)) m0.t :: m1 :: tl) 1 m1.t with ⟨mags2, row2, tj2, d⟩
      rw [hres] at hpres
      cases d with
      | false =>
        simp only [magOuterAux, hstep, hres]
        rw [magOuterAux_head (pb :: rest) mags2 row2 tj2 (le_trans le_rfl hpres.2)]
        exact hpres.1
      | true =>
        simp only [magOuterAux, hstep, hres]
        exact hpres.1
  | cons p pre2 ih =>
    intro rest tail hskip h1
    cases pre2 with
    | nil =>
      have hpa : pa.t ≤ m0.t := hskip pa (by simp)
      rw [show ([p] ++ pa :: pb :: rest) = p :: pa :: pb :: rest by simp,
        magOuterAux_skip p pa (pb :: rest) (m0 :: tail) 0 m0.t (not_lt.mpr hpa)]
      have := ih rest tail (by simp) h1
      simpa using this
    | cons p2 pre3 =>
      have hp2 : p2.t ≤ m0.t := hskip p2 (by simp)
      rw [show ((p :: p2 :: pre3) ++ pa :: pb :: rest)
            = p :: p2 :: (pre3 ++ pa :: pb :: rest) by simp,
        magOuterAux_skip p p2 (pre3 ++ pa :: pb :: rest) (m0 :: tail) 0 m0.t (not_lt.mpr hp2)]
      have hskip2 : ∀ q ∈ ((p2 :: pre3) ++ [pa]).tail, q.t ≤ m0.t := by
        intro q hq
        refine hskip q ?_
        simp only [List.cons_append, List.tail_cons] at hq ⊢
        exact List.mem_cons_of_mem p2 hq
      exact ih rest tail hskip2 h1

/-- The first magnetic sample is assigned by `magnetics_pos_calc` in the
ground-truth interval `(pa, pb)` when `m0.t < pb.t` and no earlier
interval captured it. -/
theorem magCalc_head (pa pb : PosRow) (m0 : MagRow) (pre rest : List PosRow)
    (tail : List MagRow)
    (hskip : ∀ q ∈ (pre ++ [pa]).tail, q.t ≤ m0.t) (h1 : m0.t < pb.t) :
    ∃ out, magnetics_pos_calc (pre ++ pa :: pb :: rest) (m0 :: tail) = some out ∧
      out.head? = some { m0 with
        x := (m0.t - pa.t) * ((pb.x - pa.x) / (pb.t - pa.t)) + pa.x,
        y := (m0.t - pa.t) * ((pb.y - pa.y) / (pb.t - pa.t)) + pa.y } :=
  ⟨magOuterAux (pre ++ pa :: pb :: rest) (m0 :: tail) 0 m0.t, rfl,
    magOuterAux_head_interp pa pb m0 pre rest tail hskip h1⟩

/-- C1: for a recording whose PositionTable (sorted ascending in `t`, the
documented table invariant) has consecutive ground-truth rows `pa, pb`
with `pa.t < pb.t`, and whose first magnetic sample has timestamp
`pa.t ≤ m0.t < pb.t`, `magnetics_pos_calc` assigns that sample the
position `x0 + (tm - t0) * (x1 - x0) / (t1 - t0)` (and analogously for
`y`); over the exact rational arithmetic of the model this equals the
source's evaluation order `(tm - t0) * speed + x0`. -/
theorem C1_first_sample_interpolation
    (pre rest : List PosRow) (pa pb : PosRow) (m0 : MagRow) (tail : List MagRow)
    (hsorted : (pre ++ pa :: pb :: rest).Pairwise (fun p q => p.t ≤ q.t))
    (_ht : pa.t < pb.t) (h0 : pa.t ≤ m0.t) (h1 : m0.t < pb.t) :
    ∃ out, magnetics_pos_calc (pre ++ pa :: pb :: rest) (m0 :: tail) = some out ∧
      out.head? = some { m0 with
        x := pa.x + (m0.t - pa.t) * (pb.x - pa.x) / (pb.t - pa.t),
        y := pa.y + (m0.t - pa.t) * (pb.y - pa.y) / (pb.t - pa.t) } := by
  have hskip : ∀ q ∈ (pre ++ [pa]).tail, q.t ≤ m0.t := by
    intro q hq
    have hq2 : q ∈ pre ++ [pa] := List.mem_of_mem_tail hq
    rcases List.mem_append.mp hq2 with hq3 | hq3
    · have hle := (List.pairwise_append.mp hsorted).2.2 q hq3 pa (by simp)
      exact le_trans hle h0
    · simp only [List.mem_singleton] at hq3
      subst hq3
      exact h0
  obtain ⟨out, hout, hhead⟩ := magCalc_head pa pb m0 pre rest tail hskip h1
  refine ⟨out, hout, ?_⟩
  have hx : (m0.t - pa.t) * ((pb.x - pa.x) / (pb.t - pa.t)) + pa.x
      = pa.x + (m0.t - pa.t) * (pb.x - pa.x) / (pb.t - pa.t) := by ring
  have hy : (m0.t - pa.t) * ((pb.y - pa.y) / (pb.t - pa.t)) + pa.y
      = pa.y + (m0.t - pa.t) * (pb.y - pa.y) / (pb.t - pa.t) := by ring
  rw [hhead, hx, hy]

/-- C1 witness: ground truth `(t,x,y) = (0,10,20), (2,14,28)`, first
magnetic sample at `t = 1` receives `(12, 24)`. -/
theorem C1_witness :
    ∃ out, magnetics_pos_calc
        [⟨0, 10, 20, 0, 0, 0⟩, ⟨2, 14, 28, 0, 0, 0⟩]
        [⟨1, 5, 6, 7, 8, 0, 0⟩] = some out ∧
      out.head? = some { (⟨1, 5, 6, 7, 8, 0, 0⟩ : MagRow) with
        x := 10 + ((1 : ℚ) - 0) * (14 - 10) / (2 - 0),
        y := 20 + ((1 : ℚ) - 0) * (28 - 20) / (2 - 0) } := by
  have h := C1_first_sample_interpolation [] []
    ⟨0, 10, 20, 0, 0, 0⟩ ⟨2, 14, 28, 0, 0, 0⟩ ⟨1, 5, 6, 7, 8, 0, 0⟩ []
    (by simp) (by norm_num) (by norm_num) (by norm_num)
  simpa using h

/-- C2: with at least three ground-truth rows `pa, pb, pc` (sorted table
invariant) and the first magnetic sample timestamped exactly at the
interior ground-truth timestamp `pb.t`, the inner loop of the interval
`(pa, pb)` that just ended assigns nothing (the while-condition is a
strict less-than, first conjunct), and the sample is assigned using the
velocity of the next interval `(pb, pc)` (second conjunct). -/
theorem C2_boundary_uses_next_interval
    (pre rest : List PosRow) (pa pb pc : PosRow) (m0 : MagRow) (tail : List MagRow)
    (hsorted : (pre ++ pa :: pb :: pc :: rest).Pairwise (fun p q => p.t ≤ q.t))
    (hm : m0.t = pb.t) (h2 : pb.t < pc.t) :
    (∀ (fuel : ℕ) (mags : List MagRow) (row : ℕ) (sx sy : ℚ),
        magInner pb.t pa.t pa.x pa.y sx sy fuel mags row m0.t = ⟨mags, row, m0.t, false⟩) ∧
    ∃ out, magnetics_pos_calc (pre ++ pa :: pb :: pc :: rest) (m0 :: tail) = some out ∧
      out.head? = some { m0 with
        x := pb.x + (m0.t - pb.t) * (pc.x - pb.x) / (pc.t - pb.t),
        y := pb.y + (m0.t - pb.t) * (pc.y - pb.y) / (pc.t - pb.t) } := by
  constructor
  · intro fuel mags row sx sy
    exact magInner_not_lt _ _ _ _ _ _ _ _ _ _ (by rw [hm]; exact lt_irrefl _)
  · have hpair2 : (pa :: pb :: pc :: rest).Pairwise (fun p q => p.t ≤ q.t) :=
      (List.pairwise_append.mp hsorted).2.1
    have hskip : ∀ q ∈ ((pre ++ [pa]) ++ [pb]).tail, q.t ≤ m0.t := by
      intro q hq
      have hq2 : q ∈ (pre ++ [pa]) ++ [pb] := List.mem_of_mem_tail hq
      rcases List.mem_append.mp hq2 with hq3 | hq3
      · rcases List.mem_append.mp hq3 with hq4 | hq4
        · have hle := (List.pairwise_append.mp hsorted).2.2 q hq4 pb (by simp)
          rw [hm]
          exact hle
        · simp only [List.mem_singleton] at hq4
          subst hq4
          rw [hm]
          exact (List.pairwise_cons.mp hpair2).1 pb (by simp)
      · simp only [List.mem_singleton] at hq3
        subst hq3
        rw [hm]
    have hres := magCalc_head pb pc m0 (pre ++ [pa]) rest tail hskip (by rw [hm]; exact h2)
    simp only [List.append_assoc, List.singleton_append] at hres
    obtain ⟨out, hout, hhead⟩ := hres
    refine ⟨out, hout, ?_⟩
    have hx : (m0.t - pb.t) * ((pc.x - pb.x) / (pc.t - pb.t)) + pb.x
        = pb.x + (m0.t - pb.t) * (pc.x - pb.x) / (pc.t - pb.t) := by ring
    have hy : (m0.t - pb.t) * ((pc.y - pb.y) / (pc.t - pb.t)) + pb.y
        = pb.y + (m0.t - pb.t) * (pc.y - pb.y) / (pc.t - pb.t) := by ring
    rw [hhead, hx, hy]

/-- C2 witness: three ground-truth rows at `t = 0, 1, 3` and a single
magnetic sample exactly at the middle timestamp `t = 1`; it is assigned
with the next interval's velocity, giving position `(5, 9)`. -/
theorem C2_witness :
    (∀ (fuel : ℕ) (mags : List MagRow) (row : ℕ) (sx sy : ℚ),
        magInner (1 : ℚ) 0 2 4 sx sy fuel mags row 1 = ⟨mags, row, 1, false⟩) ∧
    ∃ out, magnetics_pos_calc
        [⟨0, 2, 4, 0, 0, 0⟩, ⟨1, 5, 9, 0, 0, 0⟩, ⟨3, 11, 13, 0, 0, 0⟩]
        [⟨1, 0, 0, 0, 0, 0, 0⟩] = some out ∧
      out.head? = some { (⟨1, 0, 0, 0, 0, 0, 0⟩ : MagRow) with
        x := 5 + ((1 : ℚ) - 1) * (11 - 5) / (3 - 1),
        y := 9 + ((1 : ℚ) - 1) * (13 - 9) / (3 - 1) } := by
  have h := C2_boundary_uses_next_interval [] []
    ⟨0, 2, 4, 0, 0, 0⟩ ⟨1, 5, 9, 0, 0, 0⟩ ⟨3, 11, 13, 0, 0, 0⟩ ⟨1, 0, 0, 0, 0, 0, 0⟩ []
    (by norm_num) rfl (by norm_num)
  simpa using h

/-- C3: a first magnetic sample strictly earlier than both of the first
two ground-truth timestamps is still assigned a position — extrapolated
with the first interval's velocity via the source's formula
`(tm - t[0]) * speed + coordinate[0]`, whose time offset is negative;
there is no lower-bound guard. -/
theorem C3_extrapolation_before_first
    (rest : List PosRow) (pa pb : PosRow) (m0 : MagRow) (tail : List MagRow)
    (h0 : m0.t < pa.t) (h1 : m0.t < pb.t) :
    m0.t - pa.t < 0 ∧
    ∃ out, magnetics_pos_calc (pa :: pb :: rest) (m0 :: tail) = some out ∧
      out.head? = some { m0 with
        x := (m0.t - pa.t) * ((pb.x - pa.x) / (pb.t - pa.t)) + pa.x,
        y := (m0.t - pa.t) * ((pb.y - pa.y) / (pb.t - pa.t)) + pa.y } := by
  refine ⟨by linarith, ?_⟩
  have h := magCalc_head pa pb m0 [] rest tail (by simp) h1
  simpa using h

/-- C3 witness: ground truth starts at `t = 2`; a magnetic sample at
`t = 0` is extrapolated backwards with the first interval's velocity. -/
theorem C3_witness :
    (0 : ℚ) - 2 < 0 ∧
    ∃ out, magnetics_pos_calc
        [⟨2, 10, 20, 0, 0, 0⟩, ⟨4, 14, 28, 0, 0, 0⟩]
        [⟨0, 0, 0, 0, 0, 0, 0⟩] = some out ∧
      out.head? = some { (⟨0, 0, 0, 0, 0, 0, 0⟩ : MagRow) with
        x := ((0 : ℚ) - 2) * ((14 - 10) / (4 - 2)) + 10,
        y := ((0 : ℚ) - 2) * ((28 - 20) / (4 - 2)) + 20 } := by
  have h := C3_extrapolation_before_first []
    ⟨2, 10, 20, 0, 0, 0⟩ ⟨4, 14, 28, 0, 0, 0⟩ ⟨0, 0, 0, 0, 0, 0, 0⟩ []
    (by norm_num) (by norm_num)
  simpa using h

/-- A concrete recording for C4: one position fix at `t = 0` and one
magnetic record at `t = 1`, i.e. after the last ground truth. -/
def C4ex : Measurements :=
  ⟨[⟨0, 0, 0, 0, 0, 0⟩], [⟨1, 5, 6, 7, 8⟩]⟩

/-- C4 counterexample: `read_recording` does NOT produce one MagneticTable
row per source record — the magnetic record timestamped after the last
ground-truth fix is filtered out, so the table has no row for it. -/
theorem C4_counterexample :
    (read_recording C4ex).2.rows = [] ∧ C4ex.magnetics.length = 1 := by
  constructor
  · rfl
  · rfl

/-- C4 (amended): `read_recording` produces a PositionTable with exactly
the columns `t, x, y, floor, type, accuracy` and a MagneticTable with
exactly the columns `t, mx, my, mz, accuracy, x, y`, in those orders; the
PositionTable has one row per position record in source order, while the
MagneticTable has one row — with `x` and `y` initialized to `0.0` — per
source magnetic record whose timestamp is at most the maximum position
timestamp, in source order (later records, or all records when there are
no positions, are discarded). -/
theorem C4_load_column_contract (m : Measurements) :
    (read_recording m).1.columns = ["t", "x", "y", "floor", "type", "accuracy"] ∧
    (read_recording m).2.columns = ["t", "mx", "my", "mz", "accuracy", "x", "y"] ∧
    (read_recording m).1.rows = m.positions.map posRecordRow ∧
    (read_recording m).2.rows =
      (m.magnetics.filter
          (fun r => keepMag (maxTList ((m.positions.map posRecordRow).map PosRow.t)) r.t)).map
        magRecordRow ∧
    ∀ r ∈ (read_recording m).2.rows, r.x = 0 ∧ r.y = 0 := by
  refine ⟨rfl, rfl, rfl, ?_, ?_⟩
  · show ((m.magnetics.map magRecordRow).filter
        (fun r => keepMag (maxTList ((m.positions.map posRecordRow).map PosRow.t)) r.t)) = _
    rw [List.filter_map]
    rfl
  · intro r hr
    have : r ∈ m.magnetics.map magRecordRow := by
      have h2 : r ∈ (m.magnetics.map magRecordRow).filter
          (fun r => keepMag (maxTList ((m.positions.map posRecordRow).map PosRow.t)) r.t) := hr
      exact List.mem_of_mem_filter h2
    obtain ⟨s, _, hs⟩ := List.mem_map.mp this
    rw [← hs]
    exact ⟨rfl, rfl⟩

/-- C4 witness: the amended load contract evaluated on a concrete
recording whose second magnetic record is past the last ground truth. -/
theorem C4_witness :
    (read_recording ⟨[⟨0, 0, 0, 0, 0, 0⟩, ⟨2, 3, 4, 0, 0, 0⟩],
        [⟨1, 5, 6, 7, 8⟩, ⟨9, 1, 1, 1, 1⟩]⟩).1.columns
      = ["t", "x", "y", "floor", "type", "accuracy"] ∧
    (read_recording ⟨[⟨0, 0, 0, 0, 0, 0⟩, ⟨2, 3, 4, 0, 0, 0⟩],
        [⟨1, 5, 6, 7, 8⟩, ⟨9, 1, 1, 1, 1⟩]⟩).2.columns
      = ["t", "mx", "my", "mz", "accuracy", "x", "y"] ∧
    (read_recording ⟨[⟨0, 0, 0, 0, 0, 0⟩, ⟨2, 3, 4, 0, 0, 0⟩],
        [⟨1, 5, 6, 7, 8⟩, ⟨9, 1, 1, 1, 1⟩]⟩).2.rows = [⟨1, 5, 6, 7, 8, 0, 0⟩] := by
  have h := C4_load_column_contract
    ⟨[⟨0, 0, 0, 0, 0, 0⟩, ⟨2, 3, 4, 0, 0, 0⟩], [⟨1, 5, 6, 7, 8⟩, ⟨9, 1, 1, 1, 1⟩]⟩
  refine ⟨h.1, h.2.1, ?_⟩
  rw [h.2.2.2.1]
  rfl

/-- C5: every row of the loaded MagneticTable is timestamped at most the
maximum PositionTable timestamp; magnetic records after that bound do not
survive `read_recording`. -/
theorem C5_magnetics_trimming (m : Measurements) (r : MagRow)
    (hr : r ∈ (read_recording m).2.rows) :
    ∃ M, maxTList ((read_recording m).1.rows.map PosRow.t) = some M ∧ r.t ≤ M := by
  have hr2 : r ∈ (m.magnetics.map magRecordRow).filter
      (fun s => keepMag (maxTList ((m.positions.map posRecordRow).map PosRow.t)) s.t) := hr
  have hkeep := List.of_mem_filter hr2
  revert hkeep
  show keepMag (maxTList ((m.positions.map posRecordRow).map PosRow.t)) r.t = true → _
  cases hM : maxTList ((m.positions.map posRecordRow).map PosRow.t) with
  | none => intro hkeep; exact absurd hkeep (by simp [keepMag])
  | some M =>
    intro hkeep
    refine ⟨M, hM, ?_⟩
    simpa [keepMag] using hkeep

/-- C5 witness: a magnetic row at `t = 1` survives loading against a
single ground truth at `t = 2`, and is indeed below the maximum. -/
theorem C5_witness :
    ∃ M, maxTList ((read_recording
        ⟨[⟨2, 0, 0, 0, 0, 0⟩], [⟨1, 5, 6, 7, 8⟩]⟩).1.rows.map PosRow.t) = some M ∧
      (⟨1, 5, 6, 7, 8, 0, 0⟩ : MagRow).t ≤ M :=
  C5_magnetics_trimming ⟨[⟨2, 0, 0, 0, 0, 0⟩], [⟨1, 5, 6, 7, 8⟩]⟩
    ⟨1, 5, 6, 7, 8, 0, 0⟩ (by decide)

/-- `foldl min` is bounded by its seed. -/
theorem qmin_le (l : List ℚ) : ∀ a : ℚ, qmin a l ≤ a := by
  induction l with
  | nil => intro a; exact le_rfl
  | cons b l ih => intro a; exact le_trans (ih (min a b)) (min_le_left a b)

/-- `foldl max` dominates its seed. -/
theorem le_qmax (l : List ℚ) : ∀ a : ℚ, a ≤ qmax a l := by
  induction l with
  | nil => intro a; exact le_rfl
  | cons b l ih => intro a; exact le_trans (le_max_left a b) (ih (max a b))

/-- Python `range(a, b, 1)` has `max(b - a, 0)` elements. -/
theorem rangeLen_one (a b : Int) (h : a ≤ b) :
    rangeLen a b 1 = some (b - a).toNat := by
  simp only [rangeLen, if_neg one_ne_zero, if_pos Int.one_pos]
  by_cases hab : a < b
  · rw [if_pos hab]
    congr 1
    rw [Int.toNat_one, Nat.div_one]
    omega
  · rw [if_neg hab]
    congr 1
    omega

/-- Any grid actually returned by `set_rect_grid` carries the allocated
shape computed from the positions extents. -/
theorem set_rect_grid_shape {α : Type} [Zero α] [Add α] [Div α] [NatCast α]
    (sqv : MagRow → α) (ps : List PosRow) (mags : List MagRow) (cw ch : Int)
    (n m : ℕ) (hs : gridShapeD ps cw ch = some (n, m)) :
    ∀ g, set_rect_grid sqv ps mags cw ch = some g → g.shape = (n, m) := by
  intro g hg
  simp only [set_rect_grid, hs] at hg
  rcases hl : gridLoop sqv n m (xminOf ps) (yminOf ps) cw ch mags
      (fun _ _ => (0 : α)) (fun _ _ => 0) with _ | ⟨gsum, cnt⟩
  · rw [hl] at hg
    exact absurd hg (by simp)
  · rw [hl] at hg
    have := Option.some.inj hg
    rw [← this]

/-- C6: for cell size `[1, 1]` and a nonempty positions table, the
allocated grid shape is `(len(x_axis) + 1, len(y_axis) + 1)` and equals
`(ceil(max_x) - floor(min_x) + 1, ceil(max_y) - floor(min_y) + 1)`; the
extents come from the PositionTable only (the magnetics argument is
arbitrary), and any returned grid carries that shape. -/
theorem C6_grid_shape (ps : List PosRow) (mags : List MagRow) (hne : ps ≠ []) :
    gridShapeD ps 1 1 =
      some ((⌈xmaxOf ps⌉ - ⌊xminOf ps⌋).toNat + 1, (⌈ymaxOf ps⌉ - ⌊yminOf ps⌋).toNat + 1) ∧
    ∀ g, set_rect_grid_real ps mags 1 1 = some g →
      g.shape = ((⌈xmaxOf ps⌉ - ⌊xminOf ps⌋).toNat + 1, (⌈ymaxOf ps⌉ - ⌊yminOf ps⌋).toNat + 1) := by
  obtain ⟨p, pr, rfl⟩ := List.exists_cons_of_ne_nil hne
  have hxm : xminOf (p :: pr) ≤ xmaxOf (p :: pr) :=
    le_trans (qmin_le (pr.map PosRow.x) p.x) (le_qmax (pr.map PosRow.x) p.x)
  have hym : yminOf (p :: pr) ≤ ymaxOf (p :: pr) :=
    le_trans (qmin_le (pr.map PosRow.y) p.y) (le_qmax (pr.map PosRow.y) p.y)
  have hx : ⌊xminOf (p :: pr)⌋ ≤ ⌈xmaxOf (p :: pr)⌉ :=
    le_trans (Int.floor_mono hxm) (Int.floor_le_ceil _)
  have hy : ⌊yminOf (p :: pr)⌋ ≤ ⌈ymaxOf (p :: pr)⌉ :=
    le_trans (Int.floor_mono hym) (Int.floor_le_ceil _)
  have hshape : gridShapeD (p :: pr) 1 1 =
      some ((⌈xmaxOf (p :: pr)⌉ - ⌊xminOf (p :: pr)⌋).toNat + 1,
            (⌈ymaxOf (p :: pr)⌉ - ⌊yminOf (p :: pr)⌋).toNat + 1) := by
    simp only [gridShapeD, rangeLen_one _ _ hx, rangeLen_one _ _ hy]
  exact ⟨hshape, set_rect_grid_shape magnitudeR (p :: pr) mags 1 1 _ _ hshape⟩

/-- C6 witness: a single position at `(1/2, 3/2)` gives a `2 × 2` grid
for cell size `[1, 1]`. -/
theorem C6_witness :
    gridShapeD [⟨0, 1/2, 3/2, 0, 0, 0⟩] 1 1 =
      some ((⌈xmaxOf [⟨0, 1/2, 3/2, 0, 0, 0⟩]⌉ - ⌊xminOf [⟨0, 1/2, 3/2, 0, 0, 0⟩]⌋).toNat + 1,
            (⌈ymaxOf [⟨0, 1/2, 3/2, 0, 0, 0⟩]⌉ - ⌊yminOf [⟨0, 1/2, 3/2, 0, 0, 0⟩]⌋).toNat + 1) ∧
    ∀ g, set_rect_grid_real [⟨0, 1/2, 3/2, 0, 0, 0⟩] [] 1 1 = some g →
      g.shape = ((⌈xmaxOf [⟨0, 1/2, 3/2, 0, 0, 0⟩]⌉ - ⌊xminOf [⟨0, 1/2, 3/2, 0, 0, 0⟩]⌋).toNat + 1,
                 (⌈ymaxOf [⟨0, 1/2, 3/2, 0, 0, 0⟩]⌉ - ⌊yminOf [⟨0, 1/2, 3/2, 0, 0, 0⟩]⌋).toNat + 1) :=
  C6_grid_shape [⟨0, 1/2, 3/2, 0, 0, 0⟩] [] (by decide)

/-- Invariant of the accumulation loop: when every sample's cell index
resolves, the loop succeeds and each cell holds the running sum of the
values of exactly the samples mapped to it, with a matching count. -/
theorem gridLoop_spec {α : Type} [AddMonoid α] (sqv : MagRow → α)
    (n m : ℕ) (xmin ymin : ℚ) (cw ch : Int) :
    ∀ (mags : List MagRow) (gsum : ℕ → ℕ → α) (cnt : ℕ → ℕ → ℕ),
      (∀ r ∈ mags, (cellOf n m xmin ymin cw ch r).isSome = true) →
      ∃ gsum2 cnt2,
        gridLoop sqv n m xmin ymin cw ch mags gsum cnt = some (gsum2, cnt2) ∧
        ∀ i j,
          gsum2 i j = gsum i j +
            ((mags.filter (fun r => cellOf n m xmin ymin cw ch r = some (i, j))).map sqv).sum ∧
          cnt2 i j = cnt i j +
            (mags.filter (fun r => cellOf n m xmin ymin cw ch r = some (i, j))).length := by
  intro mags
  induction mags with
  | nil =>
    intro gsum cnt _
    exact ⟨gsum, cnt, rfl, fun i j => by simp⟩
  | cons r rs ih =>
    intro gsum cnt hall
    rcases hcell : cellOf n m xmin ymin cw ch r with _ | ⟨i0, j0⟩
    · exact absurd (hall r (by simp)) (by simp [hcell])
    · obtain ⟨gsum2, cnt2, hrun, hinv⟩ := ih
        (fun a b => if a = i0 ∧ b = j0 then gsum a b + sqv r else gsum a b)
        (fun a b => if a = i0 ∧ b = j0 then cnt a b + 1 else cnt a b)
        (fun s hs => hall s (List.mem_cons_of_mem r hs))
      refine ⟨gsum2, cnt2, ?_, ?_⟩
      · simp only [gridLoop, hcell]
        exact hrun
      · intro i j
        have h1 := (hinv i j).1
        have h2 := (hinv i j).2
        by_cases hij : i = i0 ∧ j = j0
        · obtain ⟨rfl, rfl⟩ := hij
          have hsel : cellOf n m xmin ymin cw ch r = some (i, j) := hcell
          constructor
          · rw [h1, if_pos ⟨rfl, rfl⟩, List.filter_cons, if_pos (by simp [hsel])]
            rw [List.map_cons, List.sum_cons, add_assoc]
          · rw [h2, if_pos ⟨rfl, rfl⟩, List.filter_cons, if_pos (by simp [hsel])]
            rw [List.length_cons]
            omega
        · have hne : ¬ (cellOf n m xmin ymin cw ch r = some (i, j)) := by
            rw [hcell]
            intro hcon
            have := Option.some.inj hcon
            exact hij ⟨(congrArg Prod.fst this).symm, (congrArg Prod.snd this).symm⟩
          constructor
          · rw [h1, if_neg hij, List.filter_cons, if_neg (by simp [hne])]
          · rw [h2, if_neg hij, List.filter_cons, if_neg (by simp [hne])]

/-- Full characterization of a successfully returned grid: shape from the
positions extents, and each in-range cell holding NaN (`none`) on a zero
count and `sum / count` otherwise, where the sum ranges over exactly the
samples whose index formula lands in that cell. -/
theorem set_rect_grid_spec {α : Type} [AddMonoid α] [Div α] [NatCast α]
    (sqv : MagRow → α) (ps : List PosRow) (mags : List MagRow) (cw ch : Int)
    (n m : ℕ) (hs : gridShapeD ps cw ch = some (n, m))
    (hall : ∀ r ∈ mags, (cellOf n m (xminOf ps) (yminOf ps) cw ch r).isSome = true) :
    ∃ g, set_rect_grid sqv ps mags cw ch = some g ∧ g.shape = (n, m) ∧
      ∀ i j, i < n → j < m →
        g.val i j =
          (if (mags.filter
                (fun r => cellOf n m (xminOf ps) (yminOf ps) cw ch r = some (i, j))).length = 0
           then none
           else some
            (((mags.filter
                (fun r => cellOf n m (xminOf ps) (yminOf ps) cw ch r = some (i, j))).map sqv).sum /
              ((mags.filter
                (fun r => cellOf n m (xminOf ps) (yminOf ps) cw ch r = some (i, j))).length : α))) := by
  obtain ⟨gsum2, cnt2, hrun, hinv⟩ := gridLoop_spec sqv n m (xminOf ps) (yminOf ps) cw ch mags
    (fun _ _ => (0 : α)) (fun _ _ => 0) hall
  refine ⟨⟨(n, m), fun i j =>
    if i < n ∧ j < m then
      (if cnt2 i j = 0 then none else some (gsum2 i j / (cnt2 i j : α)))
    else none⟩, ?_, rfl, ?_⟩
  · simp only [set_rect_grid, hs, hrun]
  · intro i j hi hj
    have h1 := (hinv i j).1
    have h2 := (hinv i j).2
    simp only [if_pos (And.intro hi hj)]
    rw [h1, h2, zero_add, zero_add]

/-- C7: in a successfully returned grid, every in-range cell that
receives at least one magnetic sample under the index formula
`row = -(ceil(x - x_min) // cell_w)`, `col = -(ceil(y - y_min) // cell_h)`
holds the arithmetic mean of the magnitudes `sqrt(mx² + my² + mz²)` of the
samples mapped to it, and every cell receiving zero samples holds
not-a-number (`none`), never zero. -/
theorem C7_grid_average (ps : List PosRow) (mags : List MagRow) (cw ch : Int)
    (n m i j : ℕ) (hok : gridOK ps mags cw ch = true)
    (hs : gridShapeD ps cw ch = some (n, m)) (hi : i < n) (hj : j < m) :
    ∃ g, set_rect_grid_real ps mags cw ch = some g ∧ g.shape = (n, m) ∧
      ((mags.filter (fun r => cellOf n m (xminOf ps) (yminOf ps) cw ch r = some (i, j))) = [] →
        g.val i j = none) ∧
      ((mags.filter (fun r => cellOf n m (xminOf ps) (yminOf ps) cw ch r = some (i, j))) ≠ [] →
        g.val i j = some
          (((mags.filter
              (fun r => cellOf n m (xminOf ps) (yminOf ps) cw ch r = some (i, j))).map
              magnitudeR).sum /
            ((mags.filter
              (fun r => cellOf n m (xminOf ps) (yminOf ps) cw ch r = some (i, j))).length : ℝ))) := by
  have hall : ∀ r ∈ mags, (cellOf n m (xminOf ps) (yminOf ps) cw ch r).isSome = true := by
    intro r hr
    have h2 := hok
    simp only [gridOK, hs] at h2
    exact List.all_eq_true.mp h2 r hr
  obtain ⟨g, hg, hshape, hval⟩ := set_rect_grid_spec magnitudeR ps mags cw ch n m hs hall
  refine ⟨g, hg, hshape, ?_, ?_⟩
  · intro hemp
    rw [hval i j hi hj, if_pos (by simp [hemp])]
  · intro hne
    rw [hval i j hi hj, if_neg (by simpa using hne)]

/-- A one-fix recording at the origin. -/
def C7ps : List PosRow := [⟨0, 0, 0, 0, 0, 0⟩]

/-- One magnetic sample at the origin with field `(3, 4, 0)`. -/
def C7mags : List MagRow := [⟨0, 3, 4, 0, 0, 0, 0⟩]

/-- C7 witness: the single-cell grid of a one-sample recording, described
by the averaging characterization at cell `(0, 0)`. -/
theorem C7_witness :
    ∃ g, set_rect_grid_real C7ps C7mags 1 1 = some g ∧ g.shape = (1, 1) ∧
      ((C7mags.filter
          (fun r => cellOf 1 1 (xminOf C7ps) (yminOf C7ps) 1 1 r = some (0, 0))) = [] →
        g.val 0 0 = none) ∧
      ((C7mags.filter
          (fun r => cellOf 1 1 (xminOf C7ps) (yminOf C7ps) 1 1 r = some (0, 0))) ≠ [] →
        g.val 0 0 = some
          (((C7mags.filter
              (fun r => cellOf 1 1 (xminOf C7ps) (yminOf C7ps) 1 1 r = some (0, 0))).map
              magnitudeR).sum /
            ((C7mags.filter
              (fun r => cellOf 1 1 (xminOf C7ps) (yminOf C7ps) 1 1 r = some (0, 0))).length : ℝ))) := by
  have hshape : gridShapeD C7ps 1 1 = some (1, 1) := by
    norm_num [gridShapeD, C7ps, xminOf, xmaxOf, yminOf, ymaxOf, qmin, qmax, rangeLen]
  have hcell : cellOf 1 1 (xminOf C7ps) (yminOf C7ps) 1 1 ⟨0, 3, 4, 0, 0, 0, 0⟩ = some (0, 0) := by
    norm_num [cellOf, npIndex, C7ps, xminOf, yminOf, qmin, Int.zero_fdiv]
  have hok : gridOK C7ps C7mags 1 1 = true := by
    simp [gridOK, hshape, C7mags, hcell]
  exact C7_grid_average C7ps C7mags 1 1 1 1 0 0 hok hshape (by decide) (by decide)

/-- C9 (amended): a cell size with a zero component — in particular
`[0, 0]` — is always rejected: `set_rect_grid` fails (`range` with step 0)
and returns no grid. -/
theorem C9_zero_cell_size (ps : List PosRow) (mags : List MagRow) (cw ch : Int)
    (h : cw = 0 ∨ ch = 0) : set_rect_grid_real ps mags cw ch = none := by
  have hz : gridShapeD ps cw ch = none := by
    cases ps with
    | nil => rfl
    | cons p pr =>
      rcases h with rfl | rfl
      · simp [gridShapeD, rangeLen]
      · rcases hxl : rangeLen ⌊xminOf (p :: pr)⌋ ⌈xmaxOf (p :: pr)⌉ cw with _ | xlen
        · simp [gridShapeD, hxl]
        · simp [gridShapeD, hxl, rangeLen]
  simp only [set_rect_grid_real, set_rect_grid, hz]

/-- C9 witness: cell size `[0, 0]` on a concrete recording yields no grid. -/
theorem C9_witness : set_rect_grid_real C7ps C7mags 0 0 = none :=
  C9_zero_cell_size C7ps C7mags 0 0 (Or.inl rfl)

/-- A degenerate two-fix recording whose ground truth never moves. -/
def C9ps : List PosRow := [⟨0, 0, 0, 0, 0, 0⟩, ⟨1, 0, 0, 0, 0, 0⟩]

/-- Its single magnetic sample, interpolated to the origin. -/
def C9mags : List MagRow := [⟨0, 3, 4, 0, 0, 0, 0⟩]

/-- C9 counterexample: a NEGATIVE cell size `[-1, -1]` is not rejected —
`set_rect_grid` returns a grid for this recording (the axis lists are
empty, a `1 × 1` array is allocated, and the index formula resolves to
`(0, 0)`), refuting the claim that negative cell sizes fail. -/
theorem C9_counterexample :
    ∃ g, set_rect_grid_real C9ps C9mags (-1) (-1) = some g := by
  have hshape : gridShapeD C9ps (-1) (-1) = some (1, 1) := by
    norm_num [gridShapeD, C9ps, xminOf, xmaxOf, yminOf, ymaxOf, qmin, qmax, rangeLen]
  have hcell : cellOf 1 1 (xminOf C9ps) (yminOf C9ps) (-1) (-1) ⟨0, 3, 4, 0, 0, 0, 0⟩
      = some (0, 0) := by
    norm_num [cellOf, npIndex, C9ps, xminOf, yminOf, qmin, Int.zero_fdiv]
  have hall : ∀ r ∈ C9mags, (cellOf 1 1 (xminOf C9ps) (yminOf C9ps) (-1) (-1) r).isSome = true := by
    intro r hr
    simp only [C9mags, List.mem_singleton] at hr
    subst hr
    simp [hcell]
  obtain ⟨g, hg, -, -⟩ :=
    set_rect_grid_spec magnitudeR C9ps C9mags (-1) (-1) 1 1 hshape hall
  exact ⟨g, hg⟩

/-- C8: construction with a path that is not a regular file fails with
`FileNotFoundError` whose message names the offending path, before any
read, deserialization or interpolation happens (the outcome is the same
for every filesystem content function); when the path is a regular file,
construction never raises `FileNotFoundError`. -/
theorem C8_notfound (fs : FileSystem) (path : String) :
    (fs.isfile path = false →
      IPSRecording_init fs path =
        Except.error (IPSError.notFound
          ("The specified path " ++ path ++ " isn\x27t a proper file!")) ∧
      (∃ pre post,
        ("The specified path " ++ path ++ " isn\x27t a proper file!") = pre ++ path ++ post) ∧
      ∀ fs2 : FileSystem, fs2.isfile path = false →
        IPSRecording_init fs2 path = IPSRecording_init fs path) ∧
    (fs.isfile path = true →
      ∀ msg, IPSRecording_init fs path ≠ Except.error (IPSError.notFound msg)) := by
  constructor
  · intro hmiss
    refine ⟨?_, ⟨"The specified path ", " isn\x27t a proper file!", rfl⟩, ?_⟩
    · simp only [IPSRecording_init, hmiss, if_pos]
    · intro fs2 hmiss2
      simp only [IPSRecording_init, hmiss, hmiss2, if_pos]
  · intro hhit msg
    simp only [IPSRecording_init, hhit]
    rw [if_neg (by simp)]
    rcases hc : fs.contents path with _ | meas
    · simp [read_recording_state, hc, Except.bind]
    · simp only [read_recording_state, hc, Except.bind]
      rcases hpc : magnetics_pos_calc (read_recording meas).1.rows (read_recording meas).2.rows
          with _ | rows2
      · simp [magnetics_pos_calc_state, hpc]
      · simp [magnetics_pos_calc_state, hpc]

/-- C8 witness: a filesystem with no files produces exactly the
`FileNotFoundError` naming the path, and one where the path exists (with
unparseable bytes) fails with a different error than NotFound. -/
theorem C8_witness :
    IPSRecording_init ⟨fun _ => false, fun _ => none⟩ "recordings_pb/10732.pb" =
      Except.error (IPSError.notFound
        ("The specified path " ++ "recordings_pb/10732.pb" ++ " isn\x27t a proper file!")) ∧
    ∀ msg, IPSRecording_init ⟨fun _ => true, fun _ => none⟩ "recordings_pb/10732.pb" ≠
      Except.error (IPSError.notFound msg) :=
  ⟨((C8_notfound ⟨fun _ => false, fun _ => none⟩ "recordings_pb/10732.pb").1 rfl).1,
    (C8_notfound ⟨fun _ => true, fun _ => none⟩ "recordings_pb/10732.pb").2 rfl⟩

/-- C10: reloading is idempotent and a full replacement — two invocations
of the load operation on the same (unchanged) path produce identical
PositionTable and MagneticTable contents regardless of whatever tables
(including interpolated `x`/`y` values) the states held before, and a
repeated invocation on a freshly loaded state reproduces the same tables. -/
theorem C10_load_idempotent (fs : FileSystem) (s1 s2 : IPSState)
    (hpath : s1.pb_file = s2.pb_file) :
    (∀ r1 r2, read_recording_state fs s1 = Except.ok r1 →
      read_recording_state fs s2 = Except.ok r2 →
      r1.positions = r2.positions ∧ r1.magnetics = r2.magnetics) ∧
    (∀ r1, read_recording_state fs s1 = Except.ok r1 →
      ∃ r2, read_recording_state fs r1 = Except.ok r2 ∧
        r2.positions = r1.positions ∧ r2.magnetics = r1.magnetics) := by
  constructor
  · intro r1 r2 h1 h2
    simp only [read_recording_state, hpath] at h1 h2
    rcases hc : fs.contents s2.pb_file with _ | meas
    · rw [hc] at h1
      exact absurd h1 (by simp)
    · rw [hc] at h1 h2
      have e1 := Except.ok.inj h1
      have e2 := Except.ok.inj h2
      rw [← e1, ← e2]
      exact ⟨rfl, rfl⟩
  · intro r1 h1
    simp only [read_recording_state] at h1 ⊢
    rcases hc : fs.contents s1.pb_file with _ | meas
    · rw [hc] at h1
      exact absurd h1 (by simp)
    · rw [hc] at h1
      have e1 := Except.ok.inj h1
      have hfile : r1.pb_file = s1.pb_file := by rw [← e1]
      rw [hfile, hc]
      exact ⟨_, rfl, by rw [← e1], by rw [← e1]⟩

/-- A fixed parsed recording used by the C10 witness. -/
def C10meas : Measurements := ⟨[⟨0, 0, 0, 0, 0, 0⟩], [⟨0, 1, 2, 3, 4⟩]⟩

/-- A filesystem whose every path holds `C10meas`. -/
def C10fs : FileSystem := ⟨fun _ => true, fun _ => some C10meas⟩

/-- A fresh state for the C10 witness. -/
def C10s1 : IPSState := ⟨"recordings_pb/10732.pb", ⟨[], []⟩, ⟨[], []⟩⟩

/-- A state on the same path whose tables already hold stale rows,
including interpolated positions. -/
def C10s2 : IPSState :=
  ⟨"recordings_pb/10732.pb", ⟨["junk"], [⟨9, 9, 9, 9, 9, 9⟩]⟩, ⟨[], [⟨1, 1, 1, 1, 1, 5, 5⟩]⟩⟩

/-- C10 witness: reloading on the same path replaces the differing stale
tables with identical fresh ones, and a reload of the result reproduces
the same tables. -/
theorem C10_witness :
    (∀ r1 r2, read_recording_state C10fs C10s1 = Except.ok r1 →
      read_recording_state C10fs C10s2 = Except.ok r2 →
      r1.positions = r2.positions ∧ r1.magnetics = r2.magnetics) ∧
    (∀ r1, read_recording_state C10fs C10s1 = Except.ok r1 →
      ∃ r2, read_recording_state C10fs r1 = Except.ok r2 ∧
        r2.positions = r1.positions ∧ r2.magnetics = r1.magnetics) :=
  C10_load_idempotent C10fs C10s1 C10s2 rfl
